import Mathlib

set_option maxRecDepth 10000

/-!
# Verification of the bytestream helper codec

A shallow embedding of the TurtleCoin bytestream helper (`Reader`, `Writer`,
`Varint`) together with proofs about its integer, varint, Levin varint,
timestamp and hash encodings.

Buffers are modelled as `List Nat`, one element per byte.  Hexadecimal
strings are modelled as lists of digit values (`0..15`), with `16` standing
for a character that is not a hexadecimal digit (such as `-`).  JavaScript
errors (`throw`) are modelled with `Except`, the error carrying the state
of the object at the moment of the throw.
-/

deriving instance DecidableEq for Except

namespace Bytestream

/-! ## JavaScript 32-bit integer semantics

The Levin varint writer uses JavaScript's `<<`, `>>`, `|` and `&` number
operators, which coerce their operands with `ToInt32` (two's complement,
32 bits).  The helpers below give the standard mathematical semantics of
those operators. -/

/-- JavaScript `ToUint32`: the 32-bit unsigned representative of an integer. -/
def toUint32 (a : Int) : Nat := (a % 4294967296).toNat

/-- JavaScript `ToInt32`: the 32-bit two's complement representative. -/
def toInt32 (a : Int) : Int :=
  if toUint32 a < 2147483648 then (toUint32 a : Int) else (toUint32 a : Int) - 4294967296

/-- JavaScript `a << s` (shift count is taken mod 32, result is `ToInt32`). -/
def jsShl (a : Int) (s : Nat) : Int := toInt32 ((toUint32 a <<< (s % 32) : Nat) : Int)

/-- JavaScript `a >> s`: sign-propagating right shift of the 32-bit value. -/
def jsShrA (a : Int) (s : Nat) : Int :=
  let u := toUint32 a
  let t := s % 32
  if u < 2147483648 then ((u >>> t : Nat) : Int)
  else ((u >>> t : Nat) : Int) - 2 ^ (32 - t)

/-- JavaScript `a & b` on numbers (bitwise and of the 32-bit values). -/
def jsAnd (a b : Int) : Int := toInt32 ((toUint32 a &&& toUint32 b : Nat) : Int)

/-- JavaScript `a | b` on numbers (bitwise or of the 32-bit values). -/
def jsOr (a b : Int) : Int := toInt32 ((toUint32 a ||| toUint32 b : Nat) : Int)

/-! ## Hexadecimal strings and buffers

`value.toString(16)`, `String.padStart`, `Buffer.from(hex, 'hex')` and
`buffer.toString('hex')` from the source, on the digit-list model of
strings. -/

/-- Big-endian base-16 digits of `v`, empty for `0`.  The first argument is
fuel (any amount `≥ v` gives the digits of `v`); the recursion mirrors
repeated division by 16 as performed by `value.toString(16)`. -/
def natToHexAux : Nat → Nat → List Nat
  | 0, _ => []
  | fuel + 1, v => if v = 0 then [] else natToHexAux fuel (v / 16) ++ [v % 16]

/-- `value.toString(16)` for a non-negative value: its base-16 digits,
`"0"` for zero. -/
def natToHexStr (v : Nat) : List Nat := if v = 0 then [0] else natToHexAux v v

/-- `value.toString(16)` for a possibly negative big integer: a leading
`-` character (modelled as the non-digit `16`) followed by the digits of
the absolute value. -/
def intToHexStr (n : Int) : List Nat :=
  if n < 0 then 16 :: natToHexStr n.natAbs else natToHexStr n.toNat

/-- `str.padStart(n, '0')`. -/
def padStartZero (l : List Nat) (n : Nat) : List Nat := List.replicate (n - l.length) 0 ++ l

/-- `Buffer.from(str, 'hex')`: consume pairs of hexadecimal digits,
stopping at the first pair that is incomplete or contains a character that
is not a hexadecimal digit (Node's behaviour). -/
def bufferFromHex : List Nat → List Nat
  | d0 :: d1 :: rest =>
    if d0 < 16 && d1 < 16 then (d0 * 16 + d1) :: bufferFromHex rest else []
  | _ => []

/-- The numeric value of a big-endian digit string (base 16), as computed by
`BigInteger(str, 16)`. -/
def ofHexDigits (l : List Nat) : Nat := l.foldl (fun acc d => acc * 16 + d) 0

/-- The numeric value of a big-endian byte string, as computed by
`BigInteger(buf.toString('hex'), 16)`. -/
def bytesToNat (l : List Nat) : Nat := l.foldl (fun acc b => acc * 256 + b) 0

/-- One lowercase hexadecimal digit character. -/
def hexChar (d : Nat) : Char := if d < 10 then Char.ofNat (48 + d) else Char.ofNat (87 + d)

/-- `buf.toString('hex')`: the lowercase hexadecimal rendering of a buffer. -/
def bytesToHexStr (l : List Nat) : String :=
  String.mk (l.foldr (fun b acc => hexChar (b / 16) :: hexChar (b % 16) :: acc) [])

/-- The byte-swapping pass of Node's `buf.swap64()`: reverse each aligned
8-byte group.  Fuel-indexed (any fuel `≥ l.length` is enough). -/
def swap64Aux : Nat → List Nat → List Nat
  | 0, _ => []
  | _, [] => []
  | fuel + 1, l => (l.take 8).reverse ++ swap64Aux fuel (l.drop 8)

/-- Node's `buf.swap64()`: throws a `RangeError` unless the length is a
multiple of 8, otherwise reverses the byte order of each 8-byte group. -/
def swap64 (l : List Nat) : Except String (List Nat) :=
  if l.length % 8 ≠ 0 then .error "Buffer size must be a multiple of 64-bits"
  else .ok (swap64Aux l.length l)

/-! ## The Varint codec (`src/varint.ts`)

`Varint.encode` runs two loops: while `num ≥ 2^31` it emits
`num.and(0xFF).or(0x80)` and divides by 128, then while `num.and(~0x7F)` is
positive (that is, while `num / 128` is positive) it does the same with a
7-bit shift, and finally emits the remaining value.  Both loops are
fuel-indexed here (fuel `≥ num` suffices since the value shrinks by a
factor of 128 each round). -/

/-- The second loop of `Varint.encode` plus the final byte. -/
def Varint.encodeLoopTwo : Nat → Nat → List Nat
  | 0, num => [num]
  | fuel + 1, num =>
    if 0 < num / 128 then (num % 256 ||| 128) :: Varint.encodeLoopTwo fuel (num / 128)
    else [num]

/-- The first loop of `Varint.encode` (values of 2^31 and above), falling
through to the second loop. -/
def Varint.encodeLoopOne : Nat → Nat → List Nat
  | 0, num => Varint.encodeLoopTwo num num
  | fuel + 1, num =>
    if 2147483648 ≤ num then (num % 256 ||| 128) :: Varint.encodeLoopOne fuel (num / 128)
    else Varint.encodeLoopTwo num num

/-- `Varint.encode`: LEB128-style encoding of a non-negative integer. -/
def Varint.encode (num : Nat) : List Nat := Varint.encodeLoopOne num num

/-- The decode loop of `Varint.decode`: each byte contributes its low 7
bits shifted by `7 * index`; a byte below `0x80` terminates; running out of
bytes first is a `RangeError` (`none`). -/
def Varint.decodeAux : List Nat → Nat → Nat → Option Nat
  | [], _, _ => none
  | b :: rest, shift, result =>
    let value := if shift < 28 then (b &&& 127) <<< shift else (b &&& 127) * 2 ^ shift
    if 128 ≤ b then Varint.decodeAux rest (shift + 7) (result + value)
    else some (result + value)

/-- `Varint.decode`. -/
def Varint.decode (buf : List Nat) : Option Nat := Varint.decodeAux buf 0 0

/-! ## The Writer (`src/writer.ts`) -/

/-- A `Writer` owns a growable byte buffer. -/
structure Writer where
  m_buffer : List Nat := []
deriving DecidableEq

/-- The payload union accepted by `Writer.write`: a raw buffer, or a string
(whose characters are modelled as hex-digit values, `16` marking a
character that is not a hexadecimal digit). -/
inductive WPayload where
  | buf : List Nat → WPayload
  | str : List Nat → WPayload
deriving DecidableEq

/-- `Writer.write`: append the payload (strings are decoded with the `hex`
encoding) and report success. -/
def Writer.write (w : Writer) (payload : WPayload) : Bool × Writer :=
  match payload with
  | .buf b => (true, ⟨w.m_buffer ++ b⟩)
  | .str s => (true, ⟨w.m_buffer ++ bufferFromHex s⟩)

/-- `Writer.hash`: a 32-byte buffer or a 64-character string is written,
anything else returns `false` without touching the buffer. -/
def Writer.hash (w : Writer) (h : WPayload) : Bool × Writer :=
  match h with
  | .buf b => if b.length = 32 then w.write (.buf b) else (false, w)
  | .str s => if s.length = 64 then w.write (.str s) else (false, w)

/-- The scan of `determineBits` over its table of byte counts: the first
entry whose maximum representable value is at least `value` wins. -/
def determineBitsLoop (value : Int) : List Nat → Option Nat
  | [] => none
  | byte :: rest =>
    let check : Int := if value > -1 then 2 ^ (byte * 8) - 1 else |2 ^ (byte * 8 - 1) - 1|
    if value ≤ check then some (byte * 8) else determineBitsLoop value rest

/-- `determineBits`: auto-sizing over the table `[1, 2, 4, ..., 1024]` of
byte counts; `none` models the `RangeError` when nothing fits. -/
def determineBits (value : Int) : Option Nat :=
  determineBitsLoop value [1, 2, 4, 8, 16, 32, 64, 128, 256, 512, 1024]

/-- `writeUIntBE`: pad the hexadecimal form of `value` to `2 * bytes`
digits and decode it as a buffer. -/
def writeUIntBE (value : Nat) (bytes : Nat) : List Nat :=
  bufferFromHex (padStartZero (natToHexStr value) (bytes * 2))

/-- The copy loop shared by `writeUIntLE` and `readUIntLE`: walk the source
buffer forward while writing each byte at a descending position of `temp`
(writes at negative or out-of-range positions are silently dropped, as for
a Node buffer). -/
def copyReversedLoop (temp : List Nat) (position : Int) : List Nat → List Nat
  | [] => temp
  | b :: rest =>
    copyReversedLoop (if position < 0 then temp else temp.set position.toNat b) (position - 1) rest

/-- `writeUIntLE`: the big-endian buffer of `value`, written back to front
into a zero buffer of length `bytes`. -/
def writeUIntLE (value : Nat) (bytes : Nat) : List Nat :=
  copyReversedLoop (List.replicate bytes 0) ((bytes : Int) - 1)
    (bufferFromHex (padStartZero (natToHexStr value) (bytes * 2)))

/-- `Writer.uint_t`: reject negative values, auto-size when `bits` is
omitted (or `0`, which is falsy), require a multiple of 8, then append the
big- or little-endian encoding. -/
def Writer.uint_t (w : Writer) (value : Int) (obits : Option Nat) (be : Bool) :
    Except (String × Writer) Writer :=
  if value < 0 then .error ("cannot store signed value in unsigned type", w)
  else
    match (match obits with
           | some b => if b = 0 then determineBits value else some b
           | none => determineBits value) with
    | none => .error ("value is out of range", w)
    | some bits =>
      if bits % 8 ≠ 0 then .error ("bits must be a multiple of 8", w)
      else
        let bytes := bits / 8
        let buf := if be then writeUIntBE value.toNat bytes else writeUIntLE value.toNat bytes
        .ok (w.write (.buf buf)).2

/-- `Writer.uint8_t`. -/
def Writer.uint8_t (w : Writer) (value : Int) : Except (String × Writer) Writer :=
  w.uint_t value (some 8) false

/-- The byte-emitting loop of the Levin branch of `Writer.varint`:
`this.uint8_t((tempValue >> i * 8) & 0xFF)` for `byteCount` values of `i`.
The second numeric argument counts the remaining iterations. -/
def Writer.levinLoop (w : Writer) (tempValue : Int) : Nat → Nat → Except (String × Writer) Writer
  | _, 0 => .ok w
  | i, rem + 1 =>
    match w.uint8_t (jsAnd (jsShrA tempValue (i * 8)) 255) with
    | .error e => .error e
    | .ok w2 => Writer.levinLoop w2 tempValue (i + 1) rem

/-- `Writer.varint`: plain LEB128 when `levin` is false; otherwise the
Levin size-class encoding, rejecting values above `1073741823`.  For a
negative big integer both loops of `Varint.encode` are skipped (the
`2^31` test fails and `num & ~0x7F` stays negative), so the encoder emits
the single entry `num | 0 = num`, which `Buffer.from` then wraps modulo
256 — hence the negative branch below. -/
def Writer.varint (w : Writer) (value : Int) (levin : Bool) :
    Except (String × Writer) Writer :=
  if !levin then
    .ok (w.write (.buf (if value < 0 then [(value % 256).toNat]
      else Varint.encode value.toNat))).2
  else if 1073741823 < value then .error ("value out of range", w)
  else
    let tempValue := jsShl value 2
    if value ≤ 63 then Writer.levinLoop w (jsOr tempValue 0) 0 1
    else if value ≤ 16383 then Writer.levinLoop w (jsOr tempValue 1) 0 2
    else Writer.levinLoop w (jsOr tempValue 2) 0 4

/-- `Writer.time_t`: floor the epoch milliseconds to seconds, render as 16
hexadecimal digits, decode, and byte-swap when big-endian is requested. -/
def Writer.time_t (w : Writer) (valueMs : Int) (be : Bool) :
    Except (String × Writer) Writer :=
  let num := Int.fdiv valueMs 1000
  let hex := padStartZero (intToHexStr num) 16
  if be then
    match swap64 (bufferFromHex hex) with
    | .error e => .error (e, w)
    | .ok buffer => .ok (w.write (.buf buffer)).2
  else .ok (w.write (.buf (bufferFromHex hex))).2

/-! ## The Reader (the current `reader.ts`) -/

/-- A `Reader` owns a byte buffer and a cursor. -/
structure Reader where
  m_buffer : List Nat := []
  m_current_offset : Nat := 0
deriving DecidableEq

/-- `Reader.length`. -/
def Reader.length (r : Reader) : Nat := r.m_buffer.length

/-- `Reader.offset`. -/
def Reader.offset (r : Reader) : Nat := r.m_current_offset

/-- `Reader.unreadBytes`: `length - offset`, clamped at zero. -/
def Reader.unreadBytes (r : Reader) : Nat :=
  let u : Int := (r.length : Int) - (r.offset : Int)
  if 0 ≤ u then u.toNat else 0

/-- `Reader.unreadBuffer`: `buffer.slice(offset)`. -/
def Reader.unreadBuffer (r : Reader) : List Nat := r.m_buffer.drop r.offset

/-- `Reader.append` (the `Buffer` branch): concatenate onto the buffer,
leaving the cursor alone. -/
def Reader.append (r : Reader) (blob : List Nat) : Reader :=
  { r with m_buffer := r.m_buffer ++ blob }

/-- `Reader.bytes`: slice `count` bytes at the cursor (silently short when
fewer remain) and advance the cursor by `count` regardless. -/
def Reader.bytes (r : Reader) (count : Nat) : List Nat × Reader :=
  let start := r.offset
  ((r.m_buffer.drop start).take count, { r with m_current_offset := start + count })

/-- `Reader.hex`: like `bytes` but rendered as a hexadecimal string. -/
def Reader.hex (r : Reader) (count : Nat) : String × Reader :=
  let (slice, r2) := r.bytes count
  (bytesToHexStr slice, r2)

/-- `Reader.hash`: slice `length` bytes at the cursor as a hexadecimal
string, advancing the cursor by `length` regardless of how many remain. -/
def Reader.hash (r : Reader) (length : Nat) : String × Reader :=
  let start := r.offset
  (bytesToHexStr ((r.m_buffer.drop start).take length),
   { r with m_current_offset := start + length })

/-- `Reader.skip`. -/
def Reader.skip (r : Reader) (count : Nat) : Reader :=
  { r with m_current_offset := r.m_current_offset + count }

/-- `Reader.reset`. -/
def Reader.reset (r : Reader) (toOffset : Nat) : Reader :=
  { r with m_current_offset := toOffset }

/-- `readUIntBE`: bounds-check, slice `bytes` bytes, and read them as a
big-endian (hexadecimal) number. -/
def readUIntBE (buffer : List Nat) (bytes offset : Nat) : Except String Nat :=
  if buffer.length < offset + bytes then .error "Out of bounds"
  else .ok (bytesToNat ((buffer.drop offset).take bytes))

/-- `readUIntLE`: bounds-check, slice, reverse into a temporary buffer via
the shared copy loop, and read big-endian. -/
def readUIntLE (buffer : List Nat) (bytes offset : Nat) : Except String Nat :=
  if buffer.length < offset + bytes then .error "Out of bounds"
  else .ok (bytesToNat (copyReversedLoop (List.replicate bytes 0) ((bytes : Int) - 1)
    ((buffer.drop offset).take bytes)))

/-- `Reader.uint_t`: require a multiple of 8 and enough unread bytes, then
advance the cursor and decode with `readUIntBE`/`readUIntLE`. -/
def Reader.uint_t (r : Reader) (bits : Nat) (be : Bool) :
    Except (String × Reader) (Nat × Reader) :=
  if bits % 8 ≠ 0 then .error ("bits must be a multiple of 8", r)
  else
    let bytes := bits / 8
    if r.unreadBytes < bytes then .error ("Not enough bytes remaining in the buffer", r)
    else
      let start := r.offset
      let r2 := { r with m_current_offset := start + bytes }
      match (if be then readUIntBE r.m_buffer bytes start else readUIntLE r.m_buffer bytes start) with
      | .ok v => .ok (v, r2)
      | .error e => .error (e, r2)

/-- `Reader.uint8_t`. -/
def Reader.uint8_t (r : Reader) : Except (String × Reader) (Nat × Reader) :=
  r.uint_t 8 false

/-- Two's complement reading of a `bits`-wide value. -/
def toSigned (v : Nat) (bits : Nat) : Int :=
  if v < 2 ^ (bits - 1) then (v : Int) else (v : Int) - 2 ^ bits

/-- `Reader.int_t`: the signed reader; only 1, 2 and 4 byte widths are
implemented, anything else throws after the cursor was already advanced. -/
def Reader.int_t (r : Reader) (bits : Nat) (be : Bool) :
    Except (String × Reader) (Int × Reader) :=
  if bits % 8 ≠ 0 then .error ("bits must be a multiple of 8", r)
  else
    let bytes := bits / 8
    if r.unreadBytes < bytes then .error ("Not enough bytes remaining in the buffer", r)
    else
      let start := r.offset
      let r2 := { r with m_current_offset := start + bytes }
      let byteAt := fun i => r.m_buffer.getD i 0
      match bytes with
      | 1 => .ok (toSigned (byteAt start) 8, r2)
      | 2 =>
        if be then .ok (toSigned (byteAt start * 256 + byteAt (start + 1)) 16, r2)
        else .ok (toSigned (byteAt (start + 1) * 256 + byteAt start) 16, r2)
      | 4 =>
        if be then
          .ok (toSigned (((byteAt start * 256 + byteAt (start + 1)) * 256 +
            byteAt (start + 2)) * 256 + byteAt (start + 3)) 32, r2)
        else
          .ok (toSigned (((byteAt (start + 3) * 256 + byteAt (start + 2)) * 256 +
            byteAt (start + 1)) * 256 + byteAt start) 32, r2)
      | _ => .error ("cannot read int64_t", r2)

/-- `Reader.time_t`: read 8 bytes — fewer when fewer remain, in which case
a big-endian read throws inside `swap64` (Node requires a multiple of 8)
while a little-endian read parses whatever was sliced (`BigInteger` parses
the empty hex string as 0) — and return epoch milliseconds. -/
def Reader.time_t (r : Reader) (be : Bool) : Except (String × Reader) (Int × Reader) :=
  let (buffer, r2) := r.bytes 8
  match (if be then swap64 buffer else .ok buffer) with
  | .error e => .error (e, r2)
  | .ok buf => .ok ((bytesToNat buf : Int) * 1000, r2)

/-- The scan of the non-Levin branch of `Reader.varint`: step over
continuation bytes; report the offset one past the terminating byte, or the
offset at which `readUInt8` ran off the end of the buffer. -/
def Reader.varintLoop : List Nat → Nat → Except (String × Nat) Nat
  | [], off => .error ("Attempt to access memory outside buffer bounds", off)
  | b :: rest, off => if b < 128 then .ok (off + 1) else Reader.varintLoop rest (off + 1)

/-- The read loop of the Levin branch of `Reader.varint`: or in each
subsequent byte shifted by `i * 8`.  The last argument counts the
remaining iterations. -/
def Reader.levinReadLoop : Reader → Nat → Nat → Nat → Except (String × Reader) (Nat × Reader)
  | r, value, _, 0 => .ok (value, r)
  | r, value, i, rem + 1 =>
    match r.uint8_t with
    | .error e => .error e
    | .ok (nv, r2) => Reader.levinReadLoop r2 (value ||| (nv <<< (i * 8))) (i + 1) rem

/-- `Reader.varint`: LEB128 decoding with optional cursor restore
(`peek`), or Levin size-class decoding (which ignores `peek`). -/
def Reader.varint (r : Reader) (peek levin : Bool) :
    Except (String × Reader) (Nat × Reader) :=
  let start := r.m_current_offset
  if !levin then
    match Reader.varintLoop (r.m_buffer.drop start) start with
    | .error (e, off) => .error (e, { r with m_current_offset := off })
    | .ok stop =>
      let tmp := (r.m_buffer.drop start).take (stop - start)
      let r2 := { r with m_current_offset := if peek then start else stop }
      match Varint.decode tmp with
      | some value => .ok (value, r2)
      | none => .error ("Could not decode varint", r2)
  else
    match r.uint8_t with
    | .error e => .error e
    | .ok (value, r2) =>
      let sizeMask := value &&& 3
      let bytesLeft := if sizeMask = 0 then 0 else if sizeMask = 1 then 1
        else if sizeMask = 2 then 3 else 7
      match Reader.levinReadLoop r2 value 1 bytesLeft with
      | .error e => .error e
      | .ok (value2, r3) => .ok (value2 >>> 2, r3)

/-- The widths the auto-sizing table can produce, in bits. -/
def supportedWidths : List Nat := ([1, 2, 4, 8, 16, 32, 64, 128, 256, 512, 1024]).map (· * 8)

/-! ## Facts about the hexadecimal pipeline -/

theorem natToHexAux_all_lt : ∀ (fuel v : Nat), ∀ d ∈ natToHexAux fuel v, d < 16
  | 0, v => by simp [natToHexAux]
  | fuel + 1, v => by
    simp only [natToHexAux]
    split
    · simp
    · intro d hd
      rcases List.mem_append.1 hd with h | h
      · exact natToHexAux_all_lt fuel (v / 16) d h
      · simp only [List.mem_singleton] at h
        omega

theorem natToHexAux_foldl : ∀ (fuel v : Nat), v ≤ fuel → ∀ acc : Nat,
    (natToHexAux fuel v).foldl (fun a d => a * 16 + d) acc =
      acc * 16 ^ (natToHexAux fuel v).length + v
  | 0, v, hf => by
    intro acc
    interval_cases v
    simp [natToHexAux]
  | fuel + 1, v, hf => by
    intro acc
    simp only [natToHexAux]
    split
    · simp [*]
    · have hv : 1 ≤ v := by omega
      have hle : v / 16 ≤ fuel := by
        have := Nat.div_lt_self hv (by omega : 1 < 16)
        omega
      have ih := natToHexAux_foldl fuel (v / 16) hle
      simp only [List.foldl_append, List.foldl_cons, List.foldl_nil, List.length_append,
        List.length_singleton, ih]
      have hdm := Nat.div_add_mod v 16
      rw [pow_succ]
      ring_nf
      omega

theorem natToHexAux_length_le : ∀ (fuel v k : Nat), v ≤ fuel → v < 16 ^ k →
    (natToHexAux fuel v).length ≤ k
  | 0, v, k, hf, hv => by
    interval_cases v
    simp [natToHexAux]
  | fuel + 1, v, k, hf, hv => by
    simp only [natToHexAux]
    split
    · simp
    · have hv1 : 1 ≤ v := by omega
      have hk : k ≠ 0 := by
        rintro rfl
        simp at hv
        omega
      obtain ⟨k, rfl⟩ := Nat.exists_eq_succ_of_ne_zero hk
      have hle : v / 16 ≤ fuel := by
        have := Nat.div_lt_self hv1 (by omega : 1 < 16)
        omega
      have hdiv : v / 16 < 16 ^ k := by
        rw [Nat.div_lt_iff_lt_mul (by omega : 0 < 16)]
        rw [pow_succ] at hv
        omega
      have ih := natToHexAux_length_le fuel (v / 16) k hle hdiv
      simp only [List.length_append, List.length_singleton]
      omega

theorem natToHexStr_all_lt (v : Nat) : ∀ d ∈ natToHexStr v, d < 16 := by
  unfold natToHexStr
  split
  · simp
  · exact natToHexAux_all_lt v v

theorem ofHexDigits_natToHexStr (v : Nat) : ofHexDigits (natToHexStr v) = v := by
  unfold natToHexStr ofHexDigits
  split
  · simp [*]
  · rw [natToHexAux_foldl v v le_rfl 0]
    simp

theorem natToHexStr_length_le (v k : Nat) (hk : 1 ≤ k) (hv : v < 16 ^ k) :
    (natToHexStr v).length ≤ k := by
  unfold natToHexStr
  split
  · simpa using hk
  · exact natToHexAux_length_le v v k le_rfl hv

theorem padStartZero_length (l : List Nat) (n : Nat) (h : l.length ≤ n) :
    (padStartZero l n).length = n := by
  simp [padStartZero]
  omega

theorem padStartZero_all_lt (l : List Nat) (n : Nat) (h : ∀ d ∈ l, d < 16) :
    ∀ d ∈ padStartZero l n, d < 16 := by
  intro d hd
  rcases List.mem_append.1 hd with h' | h'
  · have := List.eq_of_mem_replicate h'
    omega
  · exact h d h'

theorem ofHexDigits_padStartZero (l : List Nat) (n : Nat) :
    ofHexDigits (padStartZero l n) = ofHexDigits l := by
  unfold padStartZero ofHexDigits
  generalize n - l.length = m
  induction m with
  | zero => simp
  | succ m ih => simpa [List.replicate_succ] using ih

theorem bufferFromHex_foldl : ∀ l : List Nat, l.length % 2 = 0 → (∀ d ∈ l, d < 16) →
    ∀ acc : Nat, (bufferFromHex l).foldl (fun a b => a * 256 + b) acc =
      l.foldl (fun a d => a * 16 + d) acc
  | [], _, _ => by simp [bufferFromHex]
  | [d], h, _ => by simp at h
  | d0 :: d1 :: rest, h, hv => by
    intro acc
    have h0 : d0 < 16 := hv d0 (by simp)
    have h1 : d1 < 16 := hv d1 (by simp)
    have h2 : rest.length % 2 = 0 := by simp only [List.length_cons] at h; omega
    have ih := bufferFromHex_foldl rest h2 (fun d hd => hv d (by simp [hd]))
    unfold bufferFromHex
    rw [if_pos (by simp [h0, h1])]
    simp only [List.foldl_cons]
    rw [ih]
    congr 1
    ring

theorem bufferFromHex_length : ∀ l : List Nat, l.length % 2 = 0 → (∀ d ∈ l, d < 16) →
    (bufferFromHex l).length = l.length / 2
  | [], _, _ => by simp [bufferFromHex]
  | [d], h, _ => by simp at h
  | d0 :: d1 :: rest, h, hv => by
    have h0 : d0 < 16 := hv d0 (by simp)
    have h1 : d1 < 16 := hv d1 (by simp)
    have h2 : rest.length % 2 = 0 := by simp only [List.length_cons] at h; omega
    have ih := bufferFromHex_length rest h2 (fun d hd => hv d (by simp [hd]))
    unfold bufferFromHex
    rw [if_pos (by simp [h0, h1])]
    simp only [List.length_cons, ih]
    omega

theorem sixteen_pow (k : Nat) : (16 : Nat) ^ (k * 2) = 2 ^ (8 * k) := by
  have : (16 : Nat) = 2 ^ 4 := by norm_num
  rw [this, ← pow_mul]
  ring_nf

theorem writeUIntBE_digits_length (v k : Nat) (hk : 1 ≤ k) (hv : v < 2 ^ (8 * k)) :
    (padStartZero (natToHexStr v) (k * 2)).length = k * 2 := by
  apply padStartZero_length
  apply natToHexStr_length_le v (k * 2) (by omega)
  rw [sixteen_pow]
  exact hv

theorem writeUIntBE_length (v k : Nat) (hk : 1 ≤ k) (hv : v < 2 ^ (8 * k)) :
    (writeUIntBE v k).length = k := by
  unfold writeUIntBE
  rw [bufferFromHex_length _ (by rw [writeUIntBE_digits_length v k hk hv]; omega)
    (padStartZero_all_lt _ _ (natToHexStr_all_lt v)),
    writeUIntBE_digits_length v k hk hv]
  omega

theorem writeUIntBE_bytesToNat (v k : Nat) (hk : 1 ≤ k) (hv : v < 2 ^ (8 * k)) :
    bytesToNat (writeUIntBE v k) = v := by
  unfold writeUIntBE bytesToNat
  rw [bufferFromHex_foldl _ (by rw [writeUIntBE_digits_length v k hk hv]; omega)
    (padStartZero_all_lt _ _ (natToHexStr_all_lt v))]
  have h1 := ofHexDigits_padStartZero (natToHexStr v) (k * 2)
  have h2 := ofHexDigits_natToHexStr v
  unfold ofHexDigits at h1 h2
  rw [h1, h2]

/-! ## Facts about the byte-reversing copy loop -/

theorem copyReversedLoop_length : ∀ (src temp : List Nat) (pos : Int),
    (copyReversedLoop temp pos src).length = temp.length
  | [], temp, pos => by simp [copyReversedLoop]
  | b :: rest, temp, pos => by
    simp only [copyReversedLoop]
    rw [copyReversedLoop_length rest]
    split <;> simp

theorem copyReversedLoop_reverse : ∀ (src temp : List Nat), src.length ≤ temp.length →
    copyReversedLoop temp ((src.length : Int) - 1) src = src.reverse ++ temp.drop src.length
  | [], temp, _ => by simp [copyReversedLoop]
  | b :: rest, temp, h => by
    have hlt : rest.length < temp.length := by simp at h; omega
    simp only [copyReversedLoop, List.length_cons]
    push_cast
    have hpos : ¬((rest.length : Int) + 1 - 1 < 0) := by omega
    rw [if_neg hpos]
    have htoNat : ((rest.length : Int) + 1 - 1).toNat = rest.length := by omega
    rw [htoNat]
    have harg : ((rest.length : Int) + 1 - 1 - 1) = ((rest.length : Int) - 1) := by ring
    rw [harg]
    have hset : (temp.set rest.length b).length = temp.length := by simp
    rw [copyReversedLoop_reverse rest (temp.set rest.length b) (by omega)]
    have hdrop : (temp.set rest.length b).drop rest.length = b :: temp.drop (rest.length + 1) := by
      have htake : (temp.take rest.length).length = rest.length := by
        simp [List.length_take]
        omega
      have hdl := List.drop_left (temp.take rest.length) (b :: temp.drop (rest.length + 1))
      rw [htake] at hdl
      rw [List.set_eq_take_cons_drop b hlt, hdl]
    rw [hdrop]
    simp

theorem writeUIntLE_eq_reverse (v k : Nat) (hk : 1 ≤ k) (hv : v < 2 ^ (8 * k)) :
    writeUIntLE v k = (writeUIntBE v k).reverse := by
  unfold writeUIntLE
  have hsrc : bufferFromHex (padStartZero (natToHexStr v) (k * 2)) = writeUIntBE v k := rfl
  rw [hsrc]
  have hlen : (writeUIntBE v k).length = k := writeUIntBE_length v k hk hv
  have harg : ((k : Int) - 1) = (((writeUIntBE v k).length : Int) - 1) := by rw [hlen]
  rw [harg, copyReversedLoop_reverse (writeUIntBE v k) (List.replicate k 0) (by simp [hlen])]
  rw [hlen]
  simp

/-! ## Reader basics -/

theorem unreadBytes_eq (r : Reader) :
    r.unreadBytes = r.m_buffer.length - r.m_current_offset := by
  unfold Reader.unreadBytes Reader.length Reader.offset
  dsimp only
  split <;> omega

/-! ## Claim C1: fixed-width unsigned round trip -/

theorem writeUIntLE_length (v k : Nat) (hk : 1 ≤ k) (hv : v < 2 ^ (8 * k)) :
    (writeUIntLE v k).length = k := by
  rw [writeUIntLE_eq_reverse v k hk hv]
  simp [writeUIntBE_length v k hk hv]

theorem readUIntBE_writeUIntBE (v k : Nat) (hk : 1 ≤ k) (hv : v < 2 ^ (8 * k)) :
    readUIntBE (writeUIntBE v k) k 0 = .ok v := by
  unfold readUIntBE
  have hlen := writeUIntBE_length v k hk hv
  rw [if_neg (by omega)]
  rw [List.drop_zero, List.take_of_length_le (by omega)]
  rw [writeUIntBE_bytesToNat v k hk hv]

theorem readUIntLE_writeUIntLE (v k : Nat) (hk : 1 ≤ k) (hv : v < 2 ^ (8 * k)) :
    readUIntLE (writeUIntLE v k) k 0 = .ok v := by
  unfold readUIntLE
  have hlen := writeUIntLE_length v k hk hv
  rw [if_neg (by omega)]
  rw [List.drop_zero, List.take_of_length_le (by omega)]
  have harg : ((k : Int) - 1) = (((writeUIntLE v k).length : Int) - 1) := by rw [hlen]
  rw [harg, copyReversedLoop_reverse (writeUIntLE v k) (List.replicate k 0) (by simp [hlen])]
  rw [hlen]
  simp only [List.drop_replicate, Nat.sub_self, List.replicate_zero, List.append_nil]
  rw [writeUIntLE_eq_reverse v k hk hv, List.reverse_reverse]
  rw [writeUIntBE_bytesToNat v k hk hv]

/-- **C1**: for every bit width `b` that is a positive multiple of 8 up to
8192 and both endiannesses, writing `x < 2 ^ b` with `Writer.uint_t` and
reading it back with `Reader.uint_t` at the same width and endianness
returns exactly `x` (and leaves the cursor after the `b / 8` bytes read). -/
theorem uint_roundtrip (bits : Nat) (h8 : bits % 8 = 0) (hpos : 0 < bits)
    (hmax : bits ≤ 8192) (be : Bool) (x : Nat) (hx : x < 2 ^ bits) :
    ∃ buf : List Nat,
      Writer.uint_t ⟨[]⟩ (x : Int) (some bits) be = .ok ⟨buf⟩ ∧
      Reader.uint_t ⟨buf, 0⟩ bits be = .ok (x, ⟨buf, bits / 8⟩) := by
  obtain ⟨k, rfl⟩ : ∃ k, bits = 8 * k := ⟨bits / 8, by omega⟩
  have hk : 1 ≤ k := by omega
  have hx' : x < 2 ^ (8 * k) := hx
  have hkdiv : 8 * k / 8 = k := by omega
  have hW : ∀ buf : List Nat, (if be then writeUIntBE x k else writeUIntLE x k) = buf →
      Writer.uint_t ⟨[]⟩ (x : Int) (some (8 * k)) be = .ok ⟨buf⟩ := by
    intro buf hbuf
    unfold Writer.uint_t
    rw [if_neg (by simp : ¬((x : Int) < 0))]
    dsimp only
    rw [if_neg (by omega : ¬(8 * k = 0))]
    dsimp only
    rw [if_neg (by omega : ¬(8 * k % 8 ≠ 0))]
    unfold Writer.write
    dsimp only
    rw [← hbuf]
    simp only [Int.toNat_natCast, hkdiv, List.nil_append]
  have hR : ∀ buf : List Nat, (if be then writeUIntBE x k else writeUIntLE x k) = buf →
      Reader.uint_t ⟨buf, 0⟩ (8 * k) be = .ok (x, ⟨buf, 8 * k / 8⟩) := by
    intro buf hbuf
    have hblen : buf.length = k := by
      rw [← hbuf]
      split
      · exact writeUIntBE_length x k hk hx'
      · exact writeUIntLE_length x k hk hx'
    unfold Reader.uint_t
    rw [if_neg (by omega : ¬(8 * k % 8 ≠ 0))]
    dsimp only
    have hunread : (Reader.mk buf 0).unreadBytes = k := by
      rw [unreadBytes_eq]
      simp [hblen]
    rw [hkdiv, hunread]
    rw [if_neg (by omega : ¬(k < k))]
    have hoff : Reader.offset ⟨buf, 0⟩ = 0 := rfl
    rw [hoff]
    cases be
    · simp only [Bool.false_eq_true, if_false]
      rw [if_neg (by simp)] at hbuf
      rw [← hbuf, readUIntLE_writeUIntLE x k hk hx']
      dsimp only
      norm_num
    · simp only [if_true]
      rw [if_pos (by simp)] at hbuf
      rw [← hbuf, readUIntBE_writeUIntBE x k hk hx']
      dsimp only
      norm_num
  exact ⟨if be then writeUIntBE x k else writeUIntLE x k, hW _ rfl, hR _ rfl⟩

theorem uint_roundtrip_witness :
    (64 % 8 = 0 ∧ 0 < 64 ∧ 64 ≤ 8192 ∧ 65535 < 2 ^ 64) ∧
    ∃ buf : List Nat,
      Writer.uint_t ⟨[]⟩ ((65535 : Nat) : Int) (some 64) false = .ok ⟨buf⟩ ∧
      Reader.uint_t ⟨buf, 0⟩ 64 false = .ok (65535, ⟨buf, 64 / 8⟩) :=
  ⟨by norm_num,
   uint_roundtrip 64 (by norm_num) (by norm_num) (by norm_num) false 65535 (by norm_num)⟩

/-! ## Claim C2: LEB128 varint round trip -/

theorem lor128_and_facts : ∀ m < 256, (m ||| 128) &&& 127 = m % 128 ∧ 128 ≤ (m ||| 128) := by
  decide

theorem and127_of_lt : ∀ m < 128, m &&& 127 = m := by decide

theorem decodeAux_cons (b : Nat) (rest : List Nat) (shift result : Nat) :
    Varint.decodeAux (b :: rest) shift result =
      if 128 ≤ b then Varint.decodeAux rest (shift + 7) (result + (b &&& 127) * 2 ^ shift)
      else some (result + (b &&& 127) * 2 ^ shift) := by
  by_cases hs : shift < 28 <;> simp [Varint.decodeAux, hs, Nat.shiftLeft_eq]

theorem decode_encodeLoopTwo : ∀ (fuel num : Nat), num ≤ fuel → ∀ (shift result : Nat),
    Varint.decodeAux (Varint.encodeLoopTwo fuel num) shift result =
      some (result + num * 2 ^ shift)
  | 0, num, h => by
    intro shift result
    interval_cases num
    simp [Varint.encodeLoopTwo, decodeAux_cons]
  | fuel + 1, num, h => by
    intro shift result
    unfold Varint.encodeLoopTwo
    by_cases h128 : 0 < num / 128
    · rw [if_pos h128, decodeAux_cons]
      have hm : num % 256 < 256 := Nat.mod_lt _ (by omega)
      obtain ⟨hand, hle⟩ := lor128_and_facts (num % 256) hm
      rw [if_pos hle, hand, Nat.mod_mod_of_dvd num (by norm_num : (128 : Nat) ∣ 256)]
      rw [decode_encodeLoopTwo fuel (num / 128) (by omega)]
      have h27 : (2 : Nat) ^ (shift + 7) = 2 ^ shift * 128 := by rw [pow_add]; norm_num
      rw [h27]
      have hqr : num = 128 * (num / 128) + num % 128 := (Nat.div_add_mod num 128).symm
      conv_rhs => rw [hqr]
      ring_nf
    · rw [if_neg h128, decodeAux_cons]
      have hnum : num < 128 := by omega
      rw [if_neg (by omega), and127_of_lt num hnum]

theorem decode_encodeLoopOne : ∀ (fuel num : Nat), num ≤ fuel → ∀ (shift result : Nat),
    Varint.decodeAux (Varint.encodeLoopOne fuel num) shift result =
      some (result + num * 2 ^ shift)
  | 0, num, h => by
    intro shift result
    unfold Varint.encodeLoopOne
    exact decode_encodeLoopTwo num num le_rfl shift result
  | fuel + 1, num, h => by
    intro shift result
    unfold Varint.encodeLoopOne
    by_cases hbig : 2147483648 ≤ num
    · rw [if_pos hbig, decodeAux_cons]
      have hm : num % 256 < 256 := Nat.mod_lt _ (by omega)
      obtain ⟨hand, hle⟩ := lor128_and_facts (num % 256) hm
      rw [if_pos hle, hand, Nat.mod_mod_of_dvd num (by norm_num : (128 : Nat) ∣ 256)]
      rw [decode_encodeLoopOne fuel (num / 128) (by omega)]
      have h27 : (2 : Nat) ^ (shift + 7) = 2 ^ shift * 128 := by rw [pow_add]; norm_num
      rw [h27]
      have hqr : num = 128 * (num / 128) + num % 128 := (Nat.div_add_mod num 128).symm
      conv_rhs => rw [hqr]
      ring_nf
    · rw [if_neg hbig]
      exact decode_encodeLoopTwo num num le_rfl shift result

/-- **C2**: for every non-negative integer `x` (arbitrary precision, well
beyond `2 ^ 64 - 1`), `Varint.decode (Varint.encode x) = x`; and `encode`
maps `0`, `127`, `255`, `2 ^ 31 - 1` and `2 ^ 64 - 1` to the hex strings
`"00"`, `"7f"`, `"ff01"`, `"ffffffff07"` and `"ffffffffffffffffff01"`. -/
theorem varint_roundtrip_and_vectors :
    (∀ x : Nat, Varint.decode (Varint.encode x) = some x) ∧
    bytesToHexStr (Varint.encode 0) = "00" ∧
    bytesToHexStr (Varint.encode 127) = "7f" ∧
    bytesToHexStr (Varint.encode 255) = "ff01" ∧
    bytesToHexStr (Varint.encode (2 ^ 31 - 1)) = "ffffffff07" ∧
    bytesToHexStr (Varint.encode (2 ^ 64 - 1)) = "ffffffffffffffffff01" := by
  refine ⟨?_, by decide, by decide, by decide, by decide, by decide⟩
  intro x
  unfold Varint.decode Varint.encode
  rw [decode_encodeLoopOne x x le_rfl 0 0]
  simp

/-! ## Bitwise facts -/

theorem lor_shiftLeft_disjoint (a b k : Nat) (h : a < 2 ^ k) :
    a ||| (b <<< k) = a + b * 2 ^ k := by
  apply Nat.eq_of_testBit_eq
  intro i
  rw [Nat.testBit_lor, Nat.testBit_shiftLeft]
  rcases lt_or_ge i k with hik | hik
  · have h1 : (decide (k ≤ i) && b.testBit (i - k)) = false := by
      simp
      omega
    rw [h1, Bool.or_false]
    have hmod : (a + b * 2 ^ k) % 2 ^ k = a := by
      rw [Nat.add_mul_mod_self_right]
      exact Nat.mod_eq_of_lt h
    have hbit := Nat.testBit_mod_two_pow (a + b * 2 ^ k) k i
    rw [hmod] at hbit
    rw [hbit]
    simp [hik]
  · have h2 : a.testBit i = false :=
      Nat.testBit_lt_two_pow (lt_of_lt_of_le h (Nat.pow_le_pow_right (by norm_num) hik))
    rw [h2, Bool.false_or]
    have hdiv : (a + b * 2 ^ k) / 2 ^ k = b := by
      rw [Nat.add_mul_div_right _ _ (Nat.pos_pow_of_pos k (by norm_num))]
      rw [Nat.div_eq_of_lt h]
      omega
    have hshift : (a + b * 2 ^ k).testBit i = ((a + b * 2 ^ k) >>> k).testBit (i - k) := by
      rw [Nat.testBit_shiftRight]
      congr 1
      omega
    rw [hshift, Nat.shiftRight_eq_div_pow, hdiv]
    simp [hik]

theorem and3_eq_mod (n : Nat) : n &&& 3 = n % 4 := Nat.and_pow_two_sub_one_eq_mod n 2

theorem and255_eq_mod (n : Nat) : n &&& 255 = n % 256 := Nat.and_pow_two_sub_one_eq_mod n 8

/-! ## Evaluating the JavaScript 32-bit operators -/

theorem toUint32_lt (a : Int) : toUint32 a < 4294967296 := by
  unfold toUint32
  omega

theorem toUint32_natCast (n : Nat) : toUint32 (n : Int) = n % 4294967296 := by
  unfold toUint32
  omega

theorem toUint32_toInt32 (a : Int) : toUint32 (toInt32 a) = toUint32 a := by
  unfold toInt32 toUint32
  split <;> omega

theorem toInt32_natCast_of_lt (n : Nat) (h : n < 2147483648) : toInt32 (n : Int) = n := by
  unfold toInt32 toUint32
  split <;> omega

/-- The 32-bit unsigned value of the Levin writer's `tempValue`
(`(value << 2) | sizeClass`). -/
theorem levin_temp (v c : Nat) (hv : v ≤ 1073741823) (hc : c < 4) :
    toUint32 (jsOr (jsShl (v : Int) 2) (c : Int)) = 4 * v + c := by
  have hshl : toUint32 (jsShl (v : Int) 2) = v * 4 := by
    unfold jsShl
    rw [toUint32_toInt32, toUint32_natCast, toUint32_natCast]
    rw [Nat.mod_eq_of_lt (show v < 4294967296 by omega)]
    norm_num [Nat.shiftLeft_eq]
    omega
  have hor : v * 4 ||| c = c + v * 4 := by
    have h := lor_shiftLeft_disjoint c v 2 (by omega)
    rw [Nat.shiftLeft_eq] at h
    norm_num at h
    rw [Nat.lor_comm]
    exact h
  unfold jsOr
  rw [toUint32_toInt32, toUint32_natCast, hshl, toUint32_natCast]
  rw [Nat.mod_eq_of_lt (show c < 4294967296 by omega), hor]
  omega

/-- `(t >> s) & 0xFF` extracts byte `s / 8` of the 32-bit unsigned value of
`t`, for shifts up to 24. -/
theorem jsByte_eq (t : Int) (s : Nat) (hs : s ≤ 24) :
    jsAnd (jsShrA t s) 255 = ((toUint32 t / 2 ^ s % 256 : Nat) : Int) := by
  have hu32 : toUint32 t < 4294967296 := toUint32_lt t
  have h255 : toUint32 (255 : Int) = 255 := by decide
  unfold jsShrA
  dsimp only
  have hsm : s % 32 = s := Nat.mod_eq_of_lt (by omega)
  rw [hsm]
  have hq : toUint32 t >>> s = toUint32 t / 2 ^ s := Nat.shiftRight_eq_div_pow _ _
  have hqlt : toUint32 t / 2 ^ s < 4294967296 := lt_of_le_of_lt (Nat.div_le_self _ _) hu32
  split
  · -- non-negative 32-bit value
    unfold jsAnd
    rw [toUint32_natCast, h255, hq]
    rw [Nat.mod_eq_of_lt hqlt, and255_eq_mod]
    exact toInt32_natCast_of_lt _ (by omega)
  · -- negative 32-bit value: the shifted value is sign-extended
    unfold jsAnd
    rw [hq]
    have hPc : ((2 : Int) ^ (32 - s)) = ((2 ^ (32 - s) : Nat) : Int) := by
      push_cast
      ring
    rw [hPc]
    have hPle : (2 : Nat) ^ (32 - s) ≤ 4294967296 := by
      calc (2 : Nat) ^ (32 - s) ≤ 2 ^ 32 := Nat.pow_le_pow_right (by norm_num) (by omega)
      _ = 4294967296 := by norm_num
    have hmodeq : toUint32 (((toUint32 t / 2 ^ s : Nat) : Int) - ((2 ^ (32 - s) : Nat) : Int)) =
        (toUint32 t / 2 ^ s + (4294967296 - 2 ^ (32 - s))) % 4294967296 := by
      unfold toUint32
      omega
    rw [hmodeq, h255, and255_eq_mod]
    have hdvd1 : (256 : Nat) ∣ 4294967296 := by norm_num
    have hdvd2 : (256 : Nat) ∣ 2 ^ (32 - s) := by
      have h8 : 8 ≤ 32 - s := by omega
      calc (256 : Nat) = 2 ^ 8 := by norm_num
      _ ∣ 2 ^ (32 - s) := pow_dvd_pow 2 h8
    have hdvdD : (256 : Nat) ∣ 4294967296 - 2 ^ (32 - s) := Nat.dvd_sub' hdvd1 hdvd2
    obtain ⟨d, hd⟩ := hdvdD
    rw [Nat.mod_mod_of_dvd _ hdvd1, hd, Nat.add_mul_mod_self_left]
    exact toInt32_natCast_of_lt _ (by omega)

/-- The byte the Levin writer emits at shift `s`. -/
theorem levin_byte_eq (v c s : Nat) (hv : v ≤ 1073741823) (hc : c < 4) (hs : s ≤ 24) :
    jsAnd (jsShrA (jsOr (jsShl (v : Int) 2) (c : Int)) s) 255 =
      (((4 * v + c) / 2 ^ s % 256 : Nat) : Int) := by
  rw [jsByte_eq _ s hs, levin_temp v c hv hc]

/-! ## Single-byte writes and reads -/

theorem writeUIntBE_one (b : Nat) (hb : b < 256) : writeUIntBE b 1 = [b] := by
  have hv : b < 2 ^ (8 * 1) := by
    rw [show (2 : Nat) ^ (8 * 1) = 256 from by norm_num]
    exact hb
  have hlen : (writeUIntBE b 1).length = 1 := writeUIntBE_length b 1 le_rfl hv
  have hval : bytesToNat (writeUIntBE b 1) = b := writeUIntBE_bytesToNat b 1 le_rfl hv
  match hm : writeUIntBE b 1 with
  | [] => rw [hm] at hlen; simp at hlen
  | [x] =>
    rw [hm] at hval
    unfold bytesToNat at hval
    simp at hval
    rw [hval]
  | x :: y :: t => rw [hm] at hlen; simp at hlen

theorem writeUIntLE_one (b : Nat) (hb : b < 256) : writeUIntLE b 1 = [b] := by
  have hv : b < 2 ^ (8 * 1) := by
    rw [show (2 : Nat) ^ (8 * 1) = 256 from by norm_num]
    exact hb
  rw [writeUIntLE_eq_reverse b 1 le_rfl hv, writeUIntBE_one b hb]
  simp

theorem uint8_append (w : Writer) (b : Nat) (hb : b < 256) :
    w.uint8_t ((b : Nat) : Int) = .ok ⟨w.m_buffer ++ [b]⟩ := by
  unfold Writer.uint8_t Writer.uint_t
  rw [if_neg (by simp : ¬((b : Int) < 0))]
  dsimp only
  rw [if_neg (by norm_num : ¬((8 : Nat) = 0))]
  simp only [Int.toNat_natCast]
  norm_num
  rw [writeUIntLE_one b hb]
  unfold Writer.write
  simp

theorem uint8_read (buf : List Nat) (off : Nat) (h : off < buf.length) :
    Reader.uint8_t ⟨buf, off⟩ = .ok (buf.getD off 0, ⟨buf, off + 1⟩) := by
  unfold Reader.uint8_t Reader.uint_t
  rw [if_neg (by norm_num : ¬((8 : Nat) % 8 ≠ 0))]
  dsimp only
  rw [unreadBytes_eq]
  rw [if_neg (by simp; omega : ¬((⟨buf, off⟩ : Reader).m_buffer.length -
    (⟨buf, off⟩ : Reader).m_current_offset < 8 / 8))]
  rw [show ((8 : Nat) / 8) = 1 from by norm_num]
  unfold readUIntLE
  rw [if_neg (by simp [Reader.offset]; omega : ¬((⟨buf, off⟩ : Reader).m_buffer.length <
    (⟨buf, off⟩ : Reader).offset + 1))]
  have hdrop : buf.drop off = buf.getD off 0 :: buf.drop (off + 1) := by
    rw [List.getD_eq_getElem buf 0 h]
    exact List.drop_eq_getElem_cons h
  have hoff : (⟨buf, off⟩ : Reader).offset = off := rfl
  rw [hoff, hdrop]
  rw [show (buf.getD off 0 :: buf.drop (off + 1)).take 1 = [buf.getD off 0] from by simp]
  have hcl : ∀ y : Nat, copyReversedLoop [0] 0 [y] = [y] := by
    intro y
    simp [copyReversedLoop]
  simp [hcl, bytesToNat]

/-! ## Claim C4/C5: the Levin varint -/

theorem levin_write_class0 (w : Writer) (x : Nat) (hx : x ≤ 63) :
    Writer.varint w (x : Int) true = .ok ⟨w.m_buffer ++ [4 * x]⟩ := by
  have hb := levin_byte_eq x 0 0 (by omega) (by norm_num) (by norm_num)
  simp only [Nat.cast_zero, Nat.add_zero, pow_zero, Nat.div_one] at hb
  rw [Nat.mod_eq_of_lt (by omega : 4 * x < 256)] at hb
  unfold Writer.varint
  simp only [Bool.not_true, Bool.false_eq_true, if_false]
  rw [if_neg (by omega : ¬((1073741823 : Int) < (x : Int)))]
  rw [if_pos (by omega : (x : Int) ≤ 63)]
  simp only [Writer.levinLoop, Nat.zero_mul]
  rw [hb, uint8_append w (4 * x) (by omega)]

theorem levin_write_class1 (w : Writer) (x : Nat) (h64 : 64 ≤ x) (hx : x ≤ 16383) :
    Writer.varint w (x : Int) true =
      .ok ⟨w.m_buffer ++ [(4 * x + 1) % 256, (4 * x + 1) / 256]⟩ := by
  have hb0 := levin_byte_eq x 1 0 (by omega) (by norm_num) (by norm_num)
  have hb1 := levin_byte_eq x 1 8 (by omega) (by norm_num) (by norm_num)
  simp only [Nat.cast_one, pow_zero, Nat.div_one,
    show (2 : Nat) ^ 8 = 256 from by norm_num] at hb0 hb1
  rw [Nat.mod_eq_of_lt (by omega : (4 * x + 1) / 256 < 256)] at hb1
  unfold Writer.varint
  simp only [Bool.not_true, Bool.false_eq_true, if_false]
  rw [if_neg (by omega : ¬((1073741823 : Int) < (x : Int)))]
  rw [if_neg (by omega : ¬((x : Int) ≤ 63))]
  rw [if_pos (by omega : (x : Int) ≤ 16383)]
  simp only [Writer.levinLoop, Nat.zero_mul, Nat.one_mul]
  rw [hb0, uint8_append w ((4 * x + 1) % 256) (by omega)]
  dsimp only
  rw [hb1, uint8_append _ ((4 * x + 1) / 256) (by omega)]
  simp

theorem levin_write_class2 (w : Writer) (x : Nat) (h16k : 16384 ≤ x) (hx : x ≤ 1073741823) :
    Writer.varint w (x : Int) true =
      .ok ⟨w.m_buffer ++ [(4 * x + 2) % 256, (4 * x + 2) / 256 % 256,
        (4 * x + 2) / 65536 % 256, (4 * x + 2) / 16777216 % 256]⟩ := by
  have hb0 := levin_byte_eq x 2 0 (by omega) (by norm_num) (by norm_num)
  have hb1 := levin_byte_eq x 2 8 (by omega) (by norm_num) (by norm_num)
  have hb2 := levin_byte_eq x 2 16 (by omega) (by norm_num) (by norm_num)
  have hb3 := levin_byte_eq x 2 24 (by omega) (by norm_num) (by norm_num)
  simp only [Nat.cast_ofNat, pow_zero, Nat.div_one,
    show (2 : Nat) ^ 8 = 256 from by norm_num,
    show (2 : Nat) ^ 16 = 65536 from by norm_num,
    show (2 : Nat) ^ 24 = 16777216 from by norm_num] at hb0 hb1 hb2 hb3
  unfold Writer.varint
  simp only [Bool.not_true, Bool.false_eq_true, if_false]
  rw [if_neg (by omega : ¬((1073741823 : Int) < (x : Int)))]
  rw [if_neg (by omega : ¬((x : Int) ≤ 63))]
  rw [if_neg (by omega : ¬((x : Int) ≤ 16383))]
  simp only [Writer.levinLoop, Nat.zero_mul, Nat.one_mul,
    show 2 * 8 = 16 from by norm_num, show 3 * 8 = 24 from by norm_num]
  rw [hb0, uint8_append w _ (by omega)]
  dsimp only
  rw [hb1, uint8_append _ _ (by omega)]
  dsimp only
  rw [hb2, uint8_append _ _ (by omega)]
  dsimp only
  rw [hb3, uint8_append _ _ (by omega)]
  simp

theorem or_byte_step (u k : Nat) :
    (u % 2 ^ k) ||| ((u / 2 ^ k % 256) <<< k) = u % 2 ^ (k + 8) := by
  rw [lor_shiftLeft_disjoint _ _ k (Nat.mod_lt u (Nat.pos_pow_of_pos k (by norm_num)))]
  rw [pow_add, Nat.mod_mul]
  norm_num
  ring

theorem levin_read_class0 (x : Nat) (hx : x ≤ 63) :
    Reader.varint ⟨[4 * x], 0⟩ false true = .ok (x, ⟨[4 * x], 1⟩) := by
  unfold Reader.varint
  simp only [Bool.not_true, Bool.false_eq_true, if_false]
  rw [uint8_read [4 * x] 0 (by simp)]
  dsimp only
  rw [show ([4 * x] : List Nat).getD 0 0 = 4 * x from rfl]
  rw [and3_eq_mod, show 4 * x % 4 = 0 from by omega]
  rw [if_pos rfl]
  simp only [Reader.levinReadLoop]
  rw [Nat.shiftRight_eq_div_pow, show (2 : Nat) ^ 2 = 4 from by norm_num,
    show 4 * x / 4 = x from by omega]

theorem levin_read_class1 (x : Nat) (hx : x ≤ 16383) :
    Reader.varint ⟨[(4 * x + 1) % 256, (4 * x + 1) / 256], 0⟩ false true =
      .ok (x, ⟨[(4 * x + 1) % 256, (4 * x + 1) / 256], 2⟩) := by
  unfold Reader.varint
  simp only [Bool.not_true, Bool.false_eq_true, if_false]
  rw [uint8_read _ 0 (by simp)]
  dsimp only
  rw [show ([(4 * x + 1) % 256, (4 * x + 1) / 256] : List Nat).getD 0 0 = (4 * x + 1) % 256
    from rfl]
  rw [and3_eq_mod, Nat.mod_mod_of_dvd _ (by norm_num : (4 : Nat) ∣ 256),
    show (4 * x + 1) % 4 = 1 from by omega]
  rw [if_neg (by norm_num), if_pos rfl]
  simp only [Reader.levinReadLoop, Nat.one_mul]
  rw [uint8_read _ 1 (by simp)]
  dsimp only
  rw [show ([(4 * x + 1) % 256, (4 * x + 1) / 256] : List Nat).getD 1 0 = (4 * x + 1) / 256
    from rfl]
  have hor : (4 * x + 1) % 256 ||| (((4 * x + 1) / 256) <<< 8) = 4 * x + 1 := by
    rw [lor_shiftLeft_disjoint _ _ 8
      (by rw [show (2 : Nat) ^ 8 = 256 from by norm_num]; exact Nat.mod_lt _ (by norm_num))]
    rw [show (2 : Nat) ^ 8 = 256 from by norm_num]
    omega
  rw [hor]
  rw [Nat.shiftRight_eq_div_pow, show (2 : Nat) ^ 2 = 4 from by norm_num,
    show (4 * x + 1) / 4 = x from by omega]

theorem levin_read_class2 (x : Nat) (hx : x ≤ 1073741823) :
    Reader.varint ⟨[(4 * x + 2) % 256, (4 * x + 2) / 256 % 256,
      (4 * x + 2) / 65536 % 256, (4 * x + 2) / 16777216 % 256], 0⟩ false true =
      .ok (x, ⟨[(4 * x + 2) % 256, (4 * x + 2) / 256 % 256,
        (4 * x + 2) / 65536 % 256, (4 * x + 2) / 16777216 % 256], 4⟩) := by
  have s1 := or_byte_step (4 * x + 2) 8
  have s2 := or_byte_step (4 * x + 2) 16
  have s3 := or_byte_step (4 * x + 2) 24
  simp only [show (2 : Nat) ^ 8 = 256 from by norm_num,
    show (2 : Nat) ^ 16 = 65536 from by norm_num,
    show (2 : Nat) ^ 24 = 16777216 from by norm_num,
    show (8 : Nat) + 8 = 16 from by norm_num,
    show (16 : Nat) + 8 = 24 from by norm_num,
    show (24 : Nat) + 8 = 32 from by norm_num,
    show (2 : Nat) ^ 32 = 4294967296 from by norm_num] at s1 s2 s3
  unfold Reader.varint
  simp only [Bool.not_true, Bool.false_eq_true, if_false]
  rw [uint8_read _ 0 (by simp)]
  dsimp only
  rw [show ([(4 * x + 2) % 256, (4 * x + 2) / 256 % 256, (4 * x + 2) / 65536 % 256,
    (4 * x + 2) / 16777216 % 256] : List Nat).getD 0 0 = (4 * x + 2) % 256 from rfl]
  rw [and3_eq_mod, Nat.mod_mod_of_dvd _ (by norm_num : (4 : Nat) ∣ 256),
    show (4 * x + 2) % 4 = 2 from by omega]
  rw [if_neg (by norm_num), if_neg (by norm_num), if_pos rfl]
  simp only [Reader.levinReadLoop, Nat.one_mul,
    show 2 * 8 = 16 from by norm_num, show 3 * 8 = 24 from by norm_num]
  rw [uint8_read _ 1 (by simp)]
  dsimp only
  rw [show ([(4 * x + 2) % 256, (4 * x + 2) / 256 % 256, (4 * x + 2) / 65536 % 256,
    (4 * x + 2) / 16777216 % 256] : List Nat).getD 1 0 = (4 * x + 2) / 256 % 256 from rfl]
  rw [s1]
  rw [uint8_read _ 2 (by simp)]
  dsimp only
  rw [show ([(4 * x + 2) % 256, (4 * x + 2) / 256 % 256, (4 * x + 2) / 65536 % 256,
    (4 * x + 2) / 16777216 % 256] : List Nat).getD 2 0 = (4 * x + 2) / 65536 % 256 from rfl]
  rw [s2]
  rw [uint8_read _ 3 (by simp)]
  dsimp only
  rw [show ([(4 * x + 2) % 256, (4 * x + 2) / 256 % 256, (4 * x + 2) / 65536 % 256,
    (4 * x + 2) / 16777216 % 256] : List Nat).getD 3 0 = (4 * x + 2) / 16777216 % 256 from rfl]
  rw [s3]
  rw [Nat.mod_eq_of_lt (by omega : 4 * x + 2 < 4294967296)]
  rw [Nat.shiftRight_eq_div_pow, show (2 : Nat) ^ 2 = 4 from by norm_num,
    show (4 * x + 2) / 4 = x from by omega]

/-- **C4**: every `x` in `[0, 1073741823]` round-trips through the Levin
varint writer and reader; the Levin encodings of `0`, `127`, `32767` and
`1073741823` are the hex strings `"00"`, `"fd01"`, `"feff0100"` and
`"feffffff"`; and encoding `1073741824` raises a range error. -/
theorem levin_roundtrip_and_vectors :
    (∀ x : Nat, x ≤ 1073741823 →
      ∃ out : List Nat, Writer.varint ⟨[]⟩ (x : Int) true = .ok ⟨out⟩ ∧
        ∃ r2 : Reader, Reader.varint ⟨out, 0⟩ false true = .ok (x, r2)) ∧
    (Writer.varint ⟨[]⟩ 0 true = .ok ⟨[0x00]⟩ ∧ bytesToHexStr [0x00] = "00") ∧
    (Writer.varint ⟨[]⟩ 127 true = .ok ⟨[0xfd, 0x01]⟩ ∧ bytesToHexStr [0xfd, 0x01] = "fd01") ∧
    (Writer.varint ⟨[]⟩ 32767 true = .ok ⟨[0xfe, 0xff, 0x01, 0x00]⟩ ∧
      bytesToHexStr [0xfe, 0xff, 0x01, 0x00] = "feff0100") ∧
    (Writer.varint ⟨[]⟩ 1073741823 true = .ok ⟨[0xfe, 0xff, 0xff, 0xff]⟩ ∧
      bytesToHexStr [0xfe, 0xff, 0xff, 0xff] = "feffffff") ∧
    Writer.varint ⟨[]⟩ 1073741824 true = .error ("value out of range", ⟨[]⟩) := by
  refine ⟨?_, by decide, by decide, by decide, by decide, by decide⟩
  intro x hx
  by_cases h0 : x ≤ 63
  · refine ⟨[4 * x], ?_, ⟨_, levin_read_class0 x h0⟩⟩
    have h := levin_write_class0 ⟨[]⟩ x h0
    simpa using h
  · by_cases h1 : x ≤ 16383
    · refine ⟨[(4 * x + 1) % 256, (4 * x + 1) / 256], ?_, ⟨_, levin_read_class1 x h1⟩⟩
      have h := levin_write_class1 ⟨[]⟩ x (by omega) h1
      simpa using h
    · refine ⟨[(4 * x + 2) % 256, (4 * x + 2) / 256 % 256,
        (4 * x + 2) / 65536 % 256, (4 * x + 2) / 16777216 % 256], ?_,
        ⟨_, levin_read_class2 x hx⟩⟩
      have h := levin_write_class2 ⟨[]⟩ x (by omega) hx
      simpa using h

theorem levin_roundtrip_witness :
    (300 : Nat) ≤ 1073741823 ∧
    ∃ out : List Nat, Writer.varint ⟨[]⟩ ((300 : Nat) : Int) true = .ok ⟨out⟩ ∧
      ∃ r2 : Reader, Reader.varint ⟨out, 0⟩ false true = .ok (300, r2) :=
  ⟨by norm_num, levin_roundtrip_and_vectors.1 300 (by norm_num)⟩

/-- Counterexample to **C5** as stated: a negative value is not rejected by
the Levin writer; `-1` is accepted (no range error) and one byte `0xfc` is
appended to the buffer. -/
theorem levin_negative_accepted_cex :
    Writer.varint ⟨[]⟩ (-1) true = .ok ⟨[0xfc]⟩ := by decide

/-- **C5 (amended)**: writing a Levin varint raises the range error
`value out of range` for every value greater than `1073741823`, and appends
nothing to the buffer in that case; negative values, however, are accepted
and encoded from their two's complement bits. -/
theorem levin_overflow_error (w : Writer) (v : Int) (h : 1073741823 < v) :
    Writer.varint w v true = .error ("value out of range", w) := by
  unfold Writer.varint
  simp only [Bool.not_true, Bool.false_eq_true, if_false]
  rw [if_pos h]

theorem levin_overflow_error_witness :
    ((1073741823 : Int) < 1073741824) ∧
    Writer.varint ⟨[]⟩ 1073741824 true = .error ("value out of range", ⟨[]⟩) :=
  ⟨by norm_num, levin_overflow_error ⟨[]⟩ 1073741824 (by norm_num)⟩

/-! ## Claim C6: auto-sizing -/

theorem int_le_pow_sub_one (v n : Nat) : ((v : Int) ≤ 2 ^ n - 1) ↔ v < 2 ^ n := by
  rw [Int.le_sub_one_iff]
  exact_mod_cast Iff.rfl

theorem determineBitsLoop_first_fit : ∀ (L : List Nat) (v : Int), 0 ≤ v →
    List.Pairwise (· ≤ ·) L →
    (∀ w, determineBitsLoop v L = some w →
      (∃ byte ∈ L, w = byte * 8 ∧ v ≤ 2 ^ (byte * 8) - 1) ∧
      ∀ byte ∈ L, v ≤ 2 ^ (byte * 8) - 1 → w ≤ byte * 8) ∧
    (determineBitsLoop v L = none → ∀ byte ∈ L, ¬(v ≤ 2 ^ (byte * 8) - 1))
  | [], v, hv, hp => by simp [determineBitsLoop]
  | byte :: rest, v, hv, hp => by
    have ih := determineBitsLoop_first_fit rest v hv hp.tail
    unfold determineBitsLoop
    dsimp only
    rw [if_pos (by omega : v > -1)]
    by_cases hfit : v ≤ 2 ^ (byte * 8) - 1
    · rw [if_pos hfit]
      refine ⟨?_, by simp⟩
      intro w hw
      obtain rfl : w = byte * 8 := by injection hw with h; omega
      refine ⟨⟨byte, by simp, rfl, hfit⟩, ?_⟩
      intro b hb _
      rcases List.mem_cons.1 hb with rfl | hb
      · exact le_rfl
      · have := (List.pairwise_cons.1 hp).1 b hb
        omega
    · rw [if_neg hfit]
      refine ⟨?_, ?_⟩
      · intro w hw
        obtain ⟨⟨b, hb, rfl, hble⟩, hmin⟩ := ih.1 w hw
        refine ⟨⟨b, by simp [hb], rfl, hble⟩, ?_⟩
        intro b2 hb2 hfit2
        rcases List.mem_cons.1 hb2 with rfl | hb2
        · exact absurd hfit2 hfit
        · exact hmin b2 hb2 hfit2
      · intro hn b hb
        rcases List.mem_cons.1 hb with rfl | hb
        · exact hfit
        · exact ih.2 hn b hb

/-- **C6**: with no explicit width, the unsigned writer selects the
smallest width from `{8, 16, 32, 64, ..., 8192}` whose maximum
representable value is at least the input, writing exactly that many bytes;
values of `2 ^ 8192` and beyond raise the range error; in particular `255`
selects 8 bits, `256` selects 16, `2 ^ 32 - 1` selects 32 and `2 ^ 32`
selects 64. -/
theorem determineBits_auto :
    (∀ v : Nat, v < 2 ^ 8192 →
      ∃ w, determineBits (v : Int) = some w ∧ w ∈ supportedWidths ∧ v < 2 ^ w ∧
        (∀ u ∈ supportedWidths, v < 2 ^ u → w ≤ u) ∧
        ∀ (wr : Writer) (be : Bool), ∃ buf : List Nat,
          Writer.uint_t wr (v : Int) none be = .ok ⟨wr.m_buffer ++ buf⟩ ∧
          buf.length = w / 8) ∧
    (∀ v : Nat, 2 ^ 8192 ≤ v → determineBits (v : Int) = none ∧
      ∀ (wr : Writer) (be : Bool),
        Writer.uint_t wr (v : Int) none be = .error ("value is out of range", wr)) ∧
    determineBits 255 = some 8 ∧ determineBits 256 = some 16 ∧
    determineBits 4294967295 = some 32 ∧ determineBits 4294967296 = some 64 := by
  have htable := determineBitsLoop_first_fit [1, 2, 4, 8, 16, 32, 64, 128, 256, 512, 1024]
  have hpair : List.Pairwise (· ≤ ·) ([1, 2, 4, 8, 16, 32, 64, 128, 256, 512, 1024] : List Nat) :=
    by decide
  refine ⟨?_, ?_, by decide, by decide, by decide, by decide⟩
  · intro v hv
    have h := htable (v : Int) (by omega) hpair
    have hfit1024 : (v : Int) ≤ 2 ^ (1024 * 8) - 1 := by
      rw [int_le_pow_sub_one]
      simpa using hv
    obtain ⟨w, hw⟩ : ∃ w, determineBits (v : Int) = some w := by
      unfold determineBits
      cases hcase : determineBitsLoop (v : Int) [1, 2, 4, 8, 16, 32, 64, 128, 256, 512, 1024] with
      | some w => exact ⟨w, rfl⟩
      | none => exact absurd hfit1024 (h.2 hcase 1024 (by decide))
    obtain ⟨⟨byte, hbyte, rfl, hble⟩, hmin⟩ := h.1 _ hw
    have hbyte1 : 1 ≤ byte := by
      have : ∀ b ∈ ([1, 2, 4, 8, 16, 32, 64, 128, 256, 512, 1024] : List Nat), 1 ≤ b := by decide
      exact this byte hbyte
    have hvlt : v < 2 ^ (byte * 8) := (int_le_pow_sub_one v (byte * 8)).1 hble
    refine ⟨byte * 8, hw, ?_, hvlt, ?_, ?_⟩
    · exact List.mem_map.2 ⟨byte, hbyte, rfl⟩
    · intro u hu hvu
      obtain ⟨b2, hb2, rfl⟩ := List.mem_map.1 hu
      exact hmin b2 hb2 ((int_le_pow_sub_one v (b2 * 8)).2 hvu)
    · intro wr be
      refine ⟨if be then writeUIntBE v byte else writeUIntLE v byte, ?_, ?_⟩
      · unfold Writer.uint_t
        rw [if_neg (by simp : ¬((v : Int) < 0))]
        dsimp only
        rw [hw]
        dsimp only
        rw [if_neg (by simp [Nat.mul_mod_left] : ¬(byte * 8 % 8 ≠ 0))]
        unfold Writer.write
        dsimp only
        rw [Int.toNat_natCast, Nat.mul_div_cancel byte (by norm_num : 0 < 8)]
      · have hv8 : v < 2 ^ (8 * byte) := by rw [Nat.mul_comm 8 byte]; exact hvlt
        rw [Nat.mul_div_cancel byte (by norm_num : 0 < 8)]
        split
        · exact writeUIntBE_length v byte hbyte1 hv8
        · exact writeUIntLE_length v byte hbyte1 hv8
  · intro v hv
    have h := htable (v : Int) (by omega) hpair
    have hnone : determineBits (v : Int) = none := by
      unfold determineBits
      cases hcase : determineBitsLoop (v : Int) [1, 2, 4, 8, 16, 32, 64, 128, 256, 512, 1024] with
      | none => rfl
      | some w =>
        obtain ⟨⟨byte, hbyte, rfl, hble⟩, _⟩ := h.1 _ hcase
        have hb1024 : byte ≤ 1024 := by
          have : ∀ b ∈ ([1, 2, 4, 8, 16, 32, 64, 128, 256, 512, 1024] : List Nat), b ≤ 1024 :=
            by decide
          exact this byte hbyte
        have hvlt : v < 2 ^ (byte * 8) := (int_le_pow_sub_one v (byte * 8)).1 hble
        have : (2 : Nat) ^ (byte * 8) ≤ 2 ^ 8192 :=
          Nat.pow_le_pow_right (by norm_num) (by omega)
        omega
    refine ⟨hnone, ?_⟩
    intro wr be
    unfold Writer.uint_t
    rw [if_neg (by simp : ¬((v : Int) < 0))]
    dsimp only
    rw [hnone]

theorem determineBits_auto_witness :
    ∃ w, determineBits ((255 : Nat) : Int) = some w ∧ w ∈ supportedWidths ∧ 255 < 2 ^ w ∧
      (∀ u ∈ supportedWidths, 255 < 2 ^ u → w ≤ u) ∧
      ∀ (wr : Writer) (be : Bool), ∃ buf : List Nat,
        Writer.uint_t wr ((255 : Nat) : Int) none be = .ok ⟨wr.m_buffer ++ buf⟩ ∧
        buf.length = w / 8 :=
  determineBits_auto.1 255 (by norm_num)

/-! ## Claim C7: timestamps -/

theorem swap64_len8 (l : List Nat) (h : l.length = 8) : swap64 l = .ok l.reverse := by
  unfold swap64
  rw [if_neg (by omega : ¬(l.length % 8 ≠ 0))]
  rw [h]
  rcases l with _ | ⟨a, t⟩
  · simp at h
  · unfold swap64Aux
    rw [List.take_of_length_le (by omega), List.drop_eq_nil_of_le (by omega)]
    simp [swap64Aux]

/-- Counterexample to **C7** as stated: for the one-second timestamp,
`time_t` with `be = false` appends the big-endian bytes
`00 00 00 00 00 00 00 01`, while the unsigned writer at width 64 with the
same flag appends the little-endian bytes `01 00 00 00 00 00 00 00`. -/
theorem time_t_endian_cex :
    Writer.time_t ⟨[]⟩ 1000 false = .ok ⟨[0, 0, 0, 0, 0, 0, 0, 1]⟩ ∧
    Writer.uint_t ⟨[]⟩ 1 (some 64) false = .ok ⟨[1, 0, 0, 0, 0, 0, 0, 0]⟩ ∧
    Writer.time_t ⟨[]⟩ 1000 false ≠ Writer.uint_t ⟨[]⟩ 1 (some 64) false := by decide

/-- **C7 (amended)**: for every date whose floored epoch-second count is
non-negative (and representable in 64 bits) and both endianness flags,
`time_t` appends exactly the bytes the unsigned writer appends for that
second count at width 64 with the *opposite* endianness flag: the
timestamp's flag convention is inverted with respect to `uint_t`. -/
theorem time_t_matches_uint (w : Writer) (ms : Int) (be : Bool)
    (h0 : 0 ≤ Int.fdiv ms 1000) (h64 : Int.fdiv ms 1000 < 2 ^ 64) :
    Writer.time_t w ms be = Writer.uint_t w (Int.fdiv ms 1000) (some 64) (!be) := by
  obtain ⟨n, hn⟩ : ∃ n : Nat, Int.fdiv ms 1000 = (n : Int) :=
    ⟨(Int.fdiv ms 1000).toNat, (Int.toNat_of_nonneg h0).symm⟩
  have hn64 : n < 2 ^ 64 := by
    rw [hn] at h64
    exact_mod_cast h64
  have hn8 : n < 2 ^ (8 * 8) := by
    rw [show 8 * 8 = 64 from by norm_num]
    exact hn64
  have hhex : intToHexStr ((n : Nat) : Int) = natToHexStr n := by
    unfold intToHexStr
    rw [if_neg (by simp : ¬((n : Int) < 0)), Int.toNat_natCast]
  have hbe : bufferFromHex (padStartZero (natToHexStr n) 16) = writeUIntBE n 8 := rfl
  have hlen : (writeUIntBE n 8).length = 8 := writeUIntBE_length n 8 (by norm_num) hn8
  unfold Writer.time_t Writer.uint_t
  rw [hn, if_neg (by simp : ¬((n : Int) < 0))]
  dsimp only
  rw [if_neg (by norm_num : ¬((64 : Nat) = 0))]
  dsimp only
  rw [if_neg (by norm_num : ¬((64 : Nat) % 8 ≠ 0))]
  rw [hhex, hbe, Int.toNat_natCast]
  rw [show ((64 : Nat) / 8) = 8 from by norm_num]
  cases be
  · simp only [Bool.not_false, if_true, Bool.false_eq_true, if_false]
  · simp only [Bool.not_true, if_true, Bool.false_eq_true, if_false]
    rw [swap64_len8 _ hlen, writeUIntLE_eq_reverse n 8 (by norm_num) hn8]

theorem time_t_matches_uint_witness :
    (0 ≤ Int.fdiv 1577282076000 1000 ∧ Int.fdiv 1577282076000 1000 < 2 ^ 64) ∧
    Writer.time_t ⟨[]⟩ 1577282076000 true =
      Writer.uint_t ⟨[]⟩ (Int.fdiv 1577282076000 1000) (some 64) (!true) :=
  ⟨⟨by decide, by decide⟩,
   time_t_matches_uint ⟨[]⟩ 1577282076000 true (by decide) (by decide)⟩

/-! ## Claim C3: behaviour on insufficient data -/

/-- Counterexample to **C3** as stated: `Reader.bytes` on an empty reader
does not fail — it returns an empty (truncated) buffer and moves the
cursor to 1, one past the buffer length 0. -/
theorem readBytes_truncates_cex :
    (Reader.bytes ⟨[], 0⟩ 1).1 = [] ∧
    (Reader.bytes ⟨[], 0⟩ 1).2.m_current_offset = 1 ∧
    Reader.length (Reader.bytes ⟨[], 0⟩ 1).2 = 0 := by decide

theorem uint_t_insufficient (r : Reader) (bits : Nat) (be : Bool)
    (h : r.unreadBytes < bits / 8) :
    ∃ m, Reader.uint_t r bits be = .error (m, r) := by
  by_cases h8 : bits % 8 ≠ 0
  · refine ⟨"bits must be a multiple of 8", ?_⟩
    unfold Reader.uint_t
    rw [if_pos h8]
  · refine ⟨"Not enough bytes remaining in the buffer", ?_⟩
    unfold Reader.uint_t
    rw [if_neg h8]
    dsimp only
    rw [if_pos h]

theorem int_t_insufficient (r : Reader) (bits : Nat) (be : Bool)
    (h : r.unreadBytes < bits / 8) :
    ∃ m, Reader.int_t r bits be = .error (m, r) := by
  by_cases h8 : bits % 8 ≠ 0
  · refine ⟨"bits must be a multiple of 8", ?_⟩
    unfold Reader.int_t
    rw [if_pos h8]
  · refine ⟨"Not enough bytes remaining in the buffer", ?_⟩
    unfold Reader.int_t
    rw [if_neg h8]
    dsimp only
    rw [if_pos h]

theorem uint8_t_exhausted (buf : List Nat) (off : Nat) (h : buf.length ≤ off) :
    Reader.uint8_t ⟨buf, off⟩ =
      .error ("Not enough bytes remaining in the buffer", ⟨buf, off⟩) := by
  unfold Reader.uint8_t Reader.uint_t
  rw [if_neg (by norm_num : ¬((8 : Nat) % 8 ≠ 0))]
  dsimp only
  rw [if_pos (by rw [unreadBytes_eq]; simp; omega)]

/-- When every byte from `off` on carries the continuation bit, the varint
scan runs off the end of the buffer and reports the first out-of-bounds
offset. -/
theorem varintLoop_all_continuation : ∀ (l : List Nat) (off : Nat),
    (∀ b ∈ l, 128 ≤ b) →
    Reader.varintLoop l off =
      .error ("Attempt to access memory outside buffer bounds", off + l.length)
  | [], off, h => by simp [Reader.varintLoop]
  | b :: rest, off, h => by
    unfold Reader.varintLoop
    rw [if_neg (by have := h b (by simp); omega)]
    rw [varintLoop_all_continuation rest (off + 1) (fun x hx => h x (by simp [hx]))]
    rw [show off + 1 + rest.length = off + (b :: rest).length from by simp; omega]

/-- A non-Levin varint read from an in-bounds cursor over a buffer with no
terminating byte left fails loudly and leaves the cursor at the buffer
length — within bounds. -/
theorem varint_exhausted_nonlevin (r : Reader) (peek : Bool)
    (hcur : r.m_current_offset ≤ r.m_buffer.length)
    (hall : ∀ b ∈ r.m_buffer.drop r.m_current_offset, 128 ≤ b) :
    Reader.varint r peek false =
      .error ("Attempt to access memory outside buffer bounds",
        { r with m_current_offset := r.m_buffer.length }) := by
  unfold Reader.varint
  simp only [Bool.not_false, if_true]
  rw [varintLoop_all_continuation _ _ hall]
  dsimp only
  rw [show r.m_current_offset + (r.m_buffer.drop r.m_current_offset).length =
    r.m_buffer.length from by simp [List.length_drop]; omega]

/-- If fewer bytes remain than the Levin read loop still wants, it fails
loudly: each `uint8_t` is bounds-checked, so the error reader's cursor
never passes the buffer length. -/
theorem levinReadLoop_insufficient : ∀ (rem : Nat) (r : Reader) (value i : Nat),
    r.m_current_offset ≤ r.m_buffer.length →
    r.unreadBytes < rem →
    ∃ m r2, Reader.levinReadLoop r value i rem = .error (m, r2) ∧
      r2.m_current_offset ≤ r.m_buffer.length ∧ r2.m_buffer = r.m_buffer
  | 0, r, value, i, hcur, hins => absurd hins (by omega)
  | rem + 1, r, value, i, hcur, hins => by
    obtain ⟨buf, off⟩ := r
    rw [unreadBytes_eq] at hins
    dsimp only at hcur hins ⊢
    unfold Reader.levinReadLoop
    by_cases hz : off < buf.length
    · rw [uint8_read buf off hz]
      dsimp only
      have hins2 : (Reader.mk buf (off + 1)).unreadBytes < rem := by
        rw [unreadBytes_eq]
        dsimp only
        omega
      obtain ⟨m, r2, heq, hle, hbuf⟩ :=
        levinReadLoop_insufficient rem ⟨buf, off + 1⟩
          (value ||| (buf.getD off 0 <<< (i * 8))) (i + 1) (by dsimp only; omega) hins2
      exact ⟨m, r2, heq, hle, hbuf⟩
    · rw [uint8_t_exhausted buf off (by omega)]
      exact ⟨_, _, rfl, by dsimp only; omega, rfl⟩

/-- **C3 (amended)**: the integer reads (`uint_t`, `int_t`) fail with a
reportable error leaving the reader — in particular its cursor — exactly
as it was whenever fewer than `bits / 8` bytes remain, and `varint` fails
loudly in every insufficient-data state with the cursor kept within the
buffer: a non-Levin read with no terminating byte left errors with the
cursor at the buffer length, and a Levin read with fewer bytes than its
first byte's size class requires errors with the cursor at most the buffer
length.  The positional reads (`bytes`, `hex`, `hash`), by contrast,
silently return truncated data and push the cursor past the length, and
`time_t` either truncates silently (little-endian; an empty slice parses
as 0) or throws only `swap64`'s length error after the cursor has already
been pushed out of range (big-endian). -/
theorem insufficient_reads_fail (r : Reader) :
    (∀ (bits : Nat) (be : Bool), r.unreadBytes < bits / 8 →
      (∃ m, Reader.uint_t r bits be = .error (m, r)) ∧
      (∃ m, Reader.int_t r bits be = .error (m, r))) ∧
    (r.m_current_offset ≤ r.m_buffer.length →
      (∀ peek : Bool, (∀ b ∈ r.m_buffer.drop r.m_current_offset, 128 ≤ b) →
        Reader.varint r peek false =
          .error ("Attempt to access memory outside buffer bounds",
            { r with m_current_offset := r.m_buffer.length })) ∧
      (∀ peek : Bool,
        r.unreadBytes < 1 +
          (if (r.m_buffer.getD r.m_current_offset 0 &&& 3) = 0 then 0
           else if (r.m_buffer.getD r.m_current_offset 0 &&& 3) = 1 then 1
           else if (r.m_buffer.getD r.m_current_offset 0 &&& 3) = 2 then 3 else 7) →
        ∃ m r2, Reader.varint r peek true = .error (m, r2) ∧
          r2.m_current_offset ≤ r.m_buffer.length ∧ r2.m_buffer = r.m_buffer)) := by
  refine ⟨fun bits be h => ⟨uint_t_insufficient r bits be h, int_t_insufficient r bits be h⟩,
    fun hcur => ⟨fun peek hall => varint_exhausted_nonlevin r peek hcur hall, ?_⟩⟩
  intro peek hins
  obtain ⟨buf, off⟩ := r
  rw [unreadBytes_eq] at hins
  dsimp only at hcur hins ⊢
  unfold Reader.varint
  simp only [Bool.not_true, Bool.false_eq_true, if_false]
  by_cases hz : off < buf.length
  · rw [uint8_read buf off hz]
    dsimp only
    have hloop := levinReadLoop_insufficient
      (if (buf.getD off 0 &&& 3) = 0 then 0
       else if (buf.getD off 0 &&& 3) = 1 then 1
       else if (buf.getD off 0 &&& 3) = 2 then 3 else 7)
      ⟨buf, off + 1⟩ (buf.getD off 0) 1 (by dsimp only; omega)
      (by rw [unreadBytes_eq]; dsimp only; omega)
    obtain ⟨m, r2, heq, hle, hbuf⟩ := hloop
    rw [heq]
    exact ⟨m, r2, rfl, hle, hbuf⟩
  · rw [uint8_t_exhausted buf off (by omega)]
    exact ⟨_, _, rfl, by dsimp only; omega, rfl⟩

theorem insufficient_reads_fail_witness :
    (∃ m, Reader.uint_t ⟨[129], 0⟩ 16 false = .error (m, ⟨[129], 0⟩)) ∧
    (∃ m, Reader.int_t ⟨[129], 0⟩ 16 false = .error (m, ⟨[129], 0⟩)) ∧
    Reader.varint ⟨[129], 0⟩ false false =
      .error ("Attempt to access memory outside buffer bounds", ⟨[129], 1⟩) ∧
    (∃ m r2, Reader.varint ⟨[129], 0⟩ false true = .error (m, r2) ∧
      r2.m_current_offset ≤ ([129] : List Nat).length ∧ r2.m_buffer = [129]) :=
  ⟨((insufficient_reads_fail ⟨[129], 0⟩).1 16 false (by decide)).1,
   ((insufficient_reads_fail ⟨[129], 0⟩).1 16 false (by decide)).2,
   ((insufficient_reads_fail ⟨[129], 0⟩).2 (by decide)).1 false (by decide),
   ((insufficient_reads_fail ⟨[129], 0⟩).2 (by decide)).2 false (by decide)⟩

/-! ## Claim C8: peeking a varint -/

/-- **C8**: with `peek = true` the non-Levin read restores the cursor, but
the Levin branch ignores `peek` entirely and leaves the cursor advanced —
contradicting the method's own documentation.  On the buffer `0x00` (the
Levin encoding of 0), peeking with `levin = true` returns 0 but leaves the
cursor at 1 instead of 0. -/
theorem varint_peek_levin_divergence :
    Reader.varint ⟨[0], 0⟩ true true = .ok (0, ⟨[0], 1⟩) ∧
    Reader.varint ⟨[0], 0⟩ true false = .ok (0, ⟨[0], 0⟩) := by decide

/-! ## Claim C9: the hash writer -/

/-- Counterexample to **C9** as stated: a 64-character string that is not
hexadecimal (here 64 copies of a non-hex character) is accepted — `hash`
returns `true` — while appending 0 bytes rather than 32, instead of
returning `false` and appending nothing. -/
theorem hash_invalid_hex_cex :
    Writer.hash ⟨[]⟩ (.str (List.replicate 64 16)) = (true, ⟨[]⟩) := by decide

/-- **C9 (amended)**: `hash` appends exactly 32 bytes for a 32-byte raw
buffer or a 64-character string of valid hexadecimal digits, and returns
`false` appending nothing for buffers of any other length and strings of
any other length; but a 64-character string is accepted on length alone —
if it contains a non-hex character, `hash` still returns `true` and
appends only the bytes that decode before the first invalid character. -/
theorem hash_strict_length (w : Writer) :
    (∀ b : List Nat, b.length = 32 →
      Writer.hash w (.buf b) = (true, ⟨w.m_buffer ++ b⟩)) ∧
    (∀ b : List Nat, b.length ≠ 32 → Writer.hash w (.buf b) = (false, w)) ∧
    (∀ s : List Nat, s.length = 64 → (∀ d ∈ s, d < 16) →
      Writer.hash w (.str s) = (true, ⟨w.m_buffer ++ bufferFromHex s⟩) ∧
      (bufferFromHex s).length = 32) ∧
    (∀ s : List Nat, s.length ≠ 64 → Writer.hash w (.str s) = (false, w)) := by
  refine ⟨?_, ?_, ?_, ?_⟩
  · intro b hb
    unfold Writer.hash Writer.write
    dsimp only
    rw [if_pos hb]
  · intro b hb
    unfold Writer.hash
    dsimp only
    rw [if_neg hb]
  · intro s hs hv
    constructor
    · unfold Writer.hash Writer.write
      dsimp only
      rw [if_pos hs]
    · rw [bufferFromHex_length s (by omega) hv, hs]
  · intro s hs
    unfold Writer.hash
    dsimp only
    rw [if_neg hs]

theorem hash_strict_length_witness :
    (List.replicate 32 7 : List Nat).length = 32 ∧
    Writer.hash ⟨[]⟩ (.buf (List.replicate 32 7)) =
      (true, ⟨([] : List Nat) ++ List.replicate 32 7⟩) :=
  ⟨by decide, (hash_strict_length ⟨[]⟩).1 (List.replicate 32 7) (by decide)⟩

/-! ## Claim C10: appending to a reader -/

/-- Counterexample to **C10** as stated: a reader whose cursor was skipped
past the end of its buffer (a reachable state — `skip` does not bound the
cursor) gains 0 unread bytes, not 1, when one byte is appended. -/
theorem append_unread_cex :
    (Reader.append (Reader.skip ⟨[], 0⟩ 5) [7]).unreadBytes ≠
      (Reader.skip ⟨[], 0⟩ 5).unreadBytes + 1 := by decide

/-- **C10 (amended)**: `append` never moves the cursor, preserves every
existing byte at its index, and adds exactly the chunk's length to the
buffer length; `unreadBytes` grows by exactly the appended count provided
the cursor does not exceed the buffer length (a cursor skipped past the
end clamps `unreadBytes` to 0 and breaks exact growth). -/
theorem append_frame (r : Reader) (chunk : List Nat) :
    (r.append chunk).m_current_offset = r.m_current_offset ∧
    (∀ i, i < r.m_buffer.length →
      (r.append chunk).m_buffer.getD i 0 = r.m_buffer.getD i 0) ∧
    (r.append chunk).m_buffer.length = r.m_buffer.length + chunk.length ∧
    (r.m_current_offset ≤ r.m_buffer.length →
      (r.append chunk).unreadBytes = r.unreadBytes + chunk.length) := by
  unfold Reader.append
  refine ⟨rfl, ?_, by simp, ?_⟩
  · intro i hi
    dsimp only
    rw [List.getD_eq_getElem?_getD, List.getD_eq_getElem?_getD,
      List.getElem?_append_left hi]
  · intro hle
    rw [unreadBytes_eq, unreadBytes_eq]
    dsimp only
    rw [List.length_append]
    omega

theorem append_frame_witness :
    (⟨[1, 2], 1⟩ : Reader).m_current_offset ≤ (⟨[1, 2], 1⟩ : Reader).m_buffer.length ∧
    (Reader.append ⟨[1, 2], 1⟩ [9]).unreadBytes =
      Reader.unreadBytes ⟨[1, 2], 1⟩ + ([9] : List Nat).length :=
  ⟨by decide, (append_frame ⟨[1, 2], 1⟩ [9]).2.2.2 (by decide)⟩


end Bytestream
